import Mathlib

/-!
Verification of the iMotions-to-CodeGRITS protocol adapter
(`src/main/resources/scripts/imotions_to_codegrits.py`).

The script consumes a TCP stream of newline-delimited JSON telemetry
records, reassembles complete lines from arbitrarily chunked socket
reads, parses and filters each line, and re-emits accepted `EyeData`
samples as delimited text lines.

Modelling conventions:
* Socket chunks and lines are modelled as `List Char` (the script decodes
  each chunk to text immediately; the payload is specified as
  UTF-8-compatible text).
* Python `float` values are modelled as exact rationals `ℚ`; the decimal
  rendering agrees with Python's shortest-roundtrip `repr` on all values
  with short terminating decimal expansions, which are the only values the
  formatter produces in the verified scenarios.
* Python exceptions that the script does not catch (`KeyError`,
  `TypeError`, `ZeroDivisionError`) are modelled with `Except PyErr`;
  an `Except.error` aborts the processing loop, matching the uncaught
  propagation out of `process_events`.
* The output timestamp (`round(time.time() * 1000)`) is wall-clock time
  and is modelled as an integer parameter; the pipeline below computes the
  remainder of each output line (everything after the timestamp field).
-/

namespace IMotions

/-! ## Line framer (`process_events`, lines 86-100) -/

/-- The line-boundary characters recognised by Python `str.splitlines`. -/
def isLineBreak (c : Char) : Bool :=
  c = '\n' || c = '\r' || c = '\x0b' || c = '\x0c' ||
  c = '\x1c' || c = '\x1d' || c = '\x1e' || c = '\x85' ||
  c = '\u2028' || c = '\u2029'

/-- Shallow embedding of Python `str.splitlines(keepends=True)`:
segments keep their terminating break character(s); `'\r'` immediately
followed by `'\n'` counts as a single boundary; a trailing segment without
a terminator is kept as the final element. -/
def splitlines : List Char → List (List Char)
  | [] => []
  | c :: cs =>
    let ls := splitlines cs
    if c = '\r' then
      match ls with
      | ['\n'] :: rest => ['\r', '\n'] :: rest
      | _ => ['\r'] :: ls
    else if isLineBreak c then
      [c] :: ls
    else
      match ls with
      | [] => [[c]]
      | l :: rest => (c :: l) :: rest

/-- One iteration of the framing portion of the `process_events` loop
(lines 89-100 of the script): skip an empty chunk; otherwise split the
chunk with `splitlines(keepends=True)`, prepend the carried fragment
`line_acc` to the first segment, and pop the last segment into the new
carry when it does not end in `'\n'`.  Returns the complete lines handed
to the parser together with the updated carry. -/
def frameStep (lineAcc chunk : List Char) : List (List Char) × List Char :=
  if chunk.isEmpty then ([], lineAcc)
  else
    let ls0 := splitlines chunk
    let ls1 := if lineAcc.isEmpty then ls0 else
      match ls0 with
      | [] => []
      | l :: t => (lineAcc ++ l) :: t
    match ls1.getLast? with
    | none => ([], [])
    | some lastSeg =>
      if lastSeg.getLast? = some '\n' then (ls1, [])
      else (ls1.dropLast, lastSeg)

/-- Run the framing loop over a sequence of chunks starting from a given
carry, accumulating the emitted complete lines in order. -/
def runFramerFrom (lineAcc : List Char) : List (List Char) → List (List Char) × List Char
  | [] => ([], lineAcc)
  | c :: cs =>
    let p := frameStep lineAcc c
    let q := runFramerFrom p.2 cs
    (p.1 ++ q.1, q.2)

/-- Run the framing loop over a sequence of chunks from the session-start
state (`line_acc = ''`). -/
def runFramer (chunks : List (List Char)) : List (List Char) × List Char :=
  runFramerFrom [] chunks

/-- Reference splitter used to state chunk-boundary independence: scan the
stream splitting after each `'\n'` (keeping it), returning the complete
lines together with the unterminated tail. -/
def linesOf : List Char → List (List Char) × List Char
  | [] => ([], [])
  | c :: cs =>
    let p := linesOf cs
    if c = '\n' then (['\n'] :: p.1, p.2)
    else
      match p.1 with
      | [] => ([], c :: p.2)
      | l :: ls => ((c :: l) :: ls, p.2)

/-- A string whose only line-break characters are `'\n'`. -/
def onlyNl (s : List Char) : Prop :=
  ∀ c ∈ s, isLineBreak c = true → c = '\n'

/-- A string containing no line-break character at all. -/
def breakFree (s : List Char) : Prop :=
  ∀ c ∈ s, isLineBreak c = false

instance (s : List Char) : Decidable (onlyNl s) := by
  unfold onlyNl; infer_instance

instance (s : List Char) : Decidable (breakFree s) := by
  unfold breakFree; infer_instance

/-! ## Properties of the reference splitter -/

/-- The trailing unterminated fragment, as the list of trailing segments
`splitlines` produces for it. -/
def tailOpt (r : List Char) : List (List Char) :=
  if r = [] then [] else [r]

theorem linesOf_flatten (s : List Char) :
    (linesOf s).1.flatten ++ (linesOf s).2 = s := by
  induction s with
  | nil => rfl
  | cons c cs ih =>
    by_cases hc : c = '\n'
    · subst hc; simpa [linesOf] using ih
    · cases hp : (linesOf cs).1 with
      | nil =>
        rw [hp] at ih
        simp only [linesOf, hc, if_false, hp] at ih ⊢
        simpa using ih
      | cons l ls =>
        rw [hp] at ih
        simp only [linesOf, hc, if_false, hp] at ih ⊢
        simpa using ih

theorem linesOf_carry_no_nl (s : List Char) : '\n' ∉ (linesOf s).2 := by
  induction s with
  | nil => simp [linesOf]
  | cons c cs ih =>
    by_cases hc : c = '\n'
    · subst hc; simpa [linesOf] using ih
    · cases hp : (linesOf cs).1 with
      | nil =>
        simp only [linesOf, hc, if_false, hp]
        simp only [List.mem_cons, not_or]
        exact ⟨fun h => hc h.symm, ih⟩
      | cons l ls =>
        simp only [linesOf, hc, if_false, hp]
        exact ih

theorem linesOf_lines_end (s : List Char) :
    ∀ l ∈ (linesOf s).1, l.getLast? = some '\n' := by
  induction s with
  | nil => simp [linesOf]
  | cons c cs ih =>
    by_cases hc : c = '\n'
    · subst hc
      intro l hl
      simp only [linesOf, if_true, List.mem_cons] at hl
      rcases hl with rfl | hl
      · rfl
      · exact ih l hl
    · cases hp : (linesOf cs).1 with
      | nil => simp [linesOf, hc, hp]
      | cons l0 ls =>
        intro l hl
        simp only [linesOf, hc, if_false, hp, List.mem_cons] at hl
        have h0 : l0.getLast? = some '\n' := ih l0 (by rw [hp]; exact List.mem_cons_self _ _)
        rcases hl with rfl | hl
        · cases l0 with
          | nil => simp [List.getLast?] at h0
          | cons b t => rw [List.getLast?_cons_cons]; exact h0
        · exact ih l (by rw [hp]; exact List.mem_cons_of_mem _ hl)

theorem linesOf_nlfree {s : List Char} (h : '\n' ∉ s) : linesOf s = ([], s) := by
  induction s with
  | nil => rfl
  | cons c cs ih =>
    have hc : ¬ c = '\n' := fun e => h (by simp [e])
    have ih' := ih (fun m => h (List.mem_cons_of_mem _ m))
    simp [linesOf, hc, ih']

theorem linesOf_carry_mem {s : List Char} :
    ∀ a ∈ (linesOf s).2, a ∈ s := by
  intro a ha
  have := linesOf_flatten s
  rw [← this]
  exact List.mem_append_right _ ha

/-- Complete lines are stable under extending the stream: the lines of
`s ++ t` are the lines of `s` followed by the lines of the carry of `s`
prepended to `t`. -/
theorem linesOf_append (s t : List Char) :
    linesOf (s ++ t) =
      ((linesOf s).1 ++ (linesOf ((linesOf s).2 ++ t)).1,
       (linesOf ((linesOf s).2 ++ t)).2) := by
  induction s with
  | nil => simp [linesOf]
  | cons c s' ih =>
    by_cases hc : c = '\n'
    · subst hc
      simp only [List.cons_append, linesOf, if_true, List.append_eq, ih]
    · cases hp : (linesOf s').1 with
      | nil =>
        have hcar : (linesOf s').2 = s' := by
          have := linesOf_flatten s'
          rw [hp] at this
          simpa using this
        have hlin : linesOf (c :: s') = ([], c :: s') := by
          simp only [linesOf, hc, if_false, hp, hcar]
        rw [hlin]
        simp
      | cons l ls =>
        simp only [List.cons_append, linesOf, hc, if_false, List.append_eq, ih, hp]

/-- Prepending a newline-free fragment to a stream with no complete line
extends the carry. -/
theorem linesOf_prepend_nil {k c : List Char} (hk : '\n' ∉ k)
    (h : (linesOf c).1 = []) :
    linesOf (k ++ c) = ([], k ++ (linesOf c).2) := by
  induction k with
  | nil => rw [List.nil_append, List.nil_append, ← h]
  | cons a k' ih =>
    have ha : ¬ a = '\n' := fun e => hk (by simp [e])
    have ih' := ih (fun m => hk (List.mem_cons_of_mem _ m))
    simp only [List.cons_append, linesOf, ha, if_false, List.append_eq, ih']

/-- Prepending a newline-free fragment to a stream with at least one
complete line prepends the fragment onto the first line. -/
theorem linesOf_prepend_cons {k c l : List Char} {ls : List (List Char)}
    (hk : '\n' ∉ k) (h : (linesOf c).1 = l :: ls) :
    linesOf (k ++ c) = ((k ++ l) :: ls, (linesOf c).2) := by
  induction k with
  | nil =>
    rw [List.nil_append, List.nil_append]
    rw [Prod.ext_iff]
    exact ⟨by rw [h], rfl⟩
  | cons a k' ih =>
    have ha : ¬ a = '\n' := fun e => hk (by simp [e])
    have ih' := ih (fun m => hk (List.mem_cons_of_mem _ m))
    simp only [List.cons_append, linesOf, ha, if_false, List.append_eq, ih']

/-- On input whose only break characters are `'\n'`, Python `splitlines`
produces exactly the complete lines followed by the unterminated tail. -/
theorem splitlines_eq_linesOf {s : List Char} (h : onlyNl s) :
    splitlines s = (linesOf s).1 ++ tailOpt (linesOf s).2 := by
  induction s with
  | nil => rfl
  | cons c cs ih =>
    have hcs : onlyNl cs := fun a ha => h a (List.mem_cons_of_mem _ ha)
    have ih' := ih hcs
    by_cases hc : c = '\n'
    · subst hc
      have hnr : ¬ ('\n' : Char) = '\r' := by decide
      have hbn : isLineBreak '\n' = true := by decide
      simp only [splitlines, hnr, if_false, hbn, if_true, linesOf, ih']
      simp
    · have hb : isLineBreak c = false := by
        cases hbc : isLineBreak c
        · rfl
        · exact absurd (h c (List.mem_cons_self _ _) hbc) hc
      have hr : ¬ c = '\r' := by
        intro e
        rw [e] at hb
        simp [isLineBreak] at hb
      simp only [splitlines, hr, if_false, hb, Bool.false_eq_true, if_false, ih']
      rcases hp : (linesOf cs).1 with _ | ⟨l, ls⟩
      · rcases hq : (linesOf cs).2 with _ | ⟨a, r⟩
        · simp [linesOf, hc, hp, hq, tailOpt]
        · simp [linesOf, hc, hp, hq, tailOpt]
      · simp [linesOf, hc, hp, tailOpt]

/-! ## The framing step against the reference splitter -/

theorem getLast?_ne_nl {l : List Char} (h : '\n' ∉ l) :
    l.getLast? ≠ some '\n' :=
  fun e => h (List.mem_of_mem_getLast? (by simp [e]))

theorem lastSeg_ends {L : List (List Char)} {x : List Char}
    (hall : ∀ l ∈ L, l.getLast? = some '\n') (hx : L.getLast? = some x) :
    x.getLast? = some '\n' :=
  hall x (List.mem_of_mem_getLast? (by simp [hx]))

/-- Evaluate one framing step on a non-empty chunk, given the shape of its
`splitlines` decomposition: the carry is prepended to the first segment and
the final pop is decided by the last segment's final character. -/
theorem frameStep_eval {k c l : List Char} {t : List (List Char)}
    (hce : c ≠ []) (hsp : splitlines c = l :: t) :
    frameStep k c =
      match ((k ++ l) :: t).getLast? with
      | none => ([], [])
      | some lastSeg =>
        if lastSeg.getLast? = some '\n' then ((k ++ l) :: t, [])
        else (((k ++ l) :: t).dropLast, lastSeg) := by
  have hemp : c.isEmpty = false := List.isEmpty_eq_false.mpr hce
  rcases hL : ((k ++ l) :: t).getLast? with _ | lastSeg
  · rw [List.getLast?_eq_none_iff] at hL
    exact absurd hL (List.cons_ne_nil _ _)
  · by_cases hk0 : k = []
    · subst hk0
      rw [List.nil_append] at hL ⊢
      simp only [frameStep, hemp, Bool.false_eq_true, if_false, hsp,
        List.isEmpty_nil, if_true, hL]
    · have hke : k.isEmpty = false := List.isEmpty_eq_false.mpr hk0
      simp only [frameStep, hemp, Bool.false_eq_true, if_false, hsp, hke, hL]

/-- With a newline-free carry and a chunk whose only break character is
`'\n'`, one framing step emits exactly the complete lines of the carry
followed by the chunk, and carries its unterminated tail. -/
theorem frameStep_eq {k c : List Char} (hk : '\n' ∉ k) (hc : onlyNl c) :
    frameStep k c = linesOf (k ++ c) := by
  by_cases hce : c = []
  · subst hce
    rw [List.append_nil, linesOf_nlfree hk]
    rfl
  · have hsp := splitlines_eq_linesOf hc
    have hcar := linesOf_carry_no_nl c
    have hends := linesOf_lines_end c
    rcases hp : (linesOf c).1 with _ | ⟨l, ls⟩
    · rcases hq : (linesOf c).2 with _ | ⟨a, r⟩
      · exfalso
        have hfl := linesOf_flatten c
        rw [hp, hq] at hfl
        exact hce hfl.symm
      · rw [hp, hq] at hsp
        have hsp' : splitlines c = [a :: r] := by simpa [tailOpt] using hsp
        have hnl : '\n' ∉ k ++ a :: r := by
          intro hm
          rcases List.mem_append.1 hm with hm | hm
          · exact hk hm
          · exact (hq ▸ hcar) hm
        rw [linesOf_prepend_nil hk hp, hq, frameStep_eval hce hsp']
        simp only [List.getLast?_singleton, if_neg (getLast?_ne_nl hnl),
          List.dropLast_single]
    · rcases hq : (linesOf c).2 with _ | ⟨a, r⟩
      · rw [hp, hq] at hsp
        have hsp' : splitlines c = l :: ls := by simpa [tailOpt] using hsp
        have hall : ∀ x ∈ (k ++ l) :: ls, x.getLast? = some '\n' := by
          intro x hx
          rcases List.mem_cons.1 hx with rfl | hx
          · have hl : l ≠ [] := by
              intro e
              have := hends l (by rw [hp]; exact List.mem_cons_self _ _)
              rw [e] at this
              simp at this
            rw [List.getLast?_append_of_ne_nil _ hl]
            exact hends l (by rw [hp]; exact List.mem_cons_self _ _)
          · exact hends x (by rw [hp]; exact List.mem_cons_of_mem _ hx)
        rw [linesOf_prepend_cons hk hp, hq, frameStep_eval hce hsp']
        rcases hL : ((k ++ l) :: ls).getLast? with _ | lastSeg
        · rw [List.getLast?_eq_none_iff] at hL
          exact absurd hL (List.cons_ne_nil _ _)
        · simp only [if_pos (lastSeg_ends hall hL)]
      · rw [hp, hq] at hsp
        have hsp' : splitlines c = l :: (ls ++ [a :: r]) := by
          simpa [tailOpt] using hsp
        have hnl : '\n' ∉ a :: r := hq ▸ hcar
        rw [linesOf_prepend_cons hk hp, hq, frameStep_eval hce hsp']
        have hL : ((k ++ l) :: (ls ++ [a :: r])).getLast? = some (a :: r) := by
          rw [← List.cons_append, List.getLast?_concat]
        rw [hL]
        simp only [if_neg (getLast?_ne_nl hnl), ← List.cons_append,
          List.dropLast_concat]

/-- Feeding a chunk sequence through the framing loop processes exactly
the concatenated stream, provided the carry is newline-free and every
chunk uses only `'\n'` as a break character. -/
theorem runFramerFrom_eq (chunks : List (List Char)) (k : List Char)
    (hk : '\n' ∉ k) (hall : ∀ ch ∈ chunks, onlyNl ch) :
    runFramerFrom k chunks = linesOf (k ++ chunks.flatten) := by
  induction chunks generalizing k with
  | nil =>
    rw [List.flatten_nil, List.append_nil, linesOf_nlfree hk]
    rfl
  | cons c cs ih =>
    have hc : onlyNl c := hall c (List.mem_cons_self _ _)
    have hcs : ∀ ch ∈ cs, onlyNl ch := fun ch h => hall ch (List.mem_cons_of_mem _ h)
    have h1 : frameStep k c = linesOf (k ++ c) := frameStep_eq hk hc
    have h2 := ih ((linesOf (k ++ c)).2) (linesOf_carry_no_nl _) hcs
    simp only [runFramerFrom, h1, h2]
    rw [List.flatten_cons, ← List.append_assoc, linesOf_append (k ++ c) cs.flatten]

/-! ## Unconditional carry invariant -/

theorem splitlines_ne_nil (s : List Char) : ∀ l ∈ splitlines s, l ≠ [] := by
  induction s with
  | nil => simp [splitlines]
  | cons c cs ih =>
    intro l hl
    simp only [splitlines] at hl
    by_cases hr : c = '\r'
    · rw [if_pos hr] at hl
      revert hl
      split
      · rename_i rest heq
        intro hl
        rcases List.mem_cons.1 hl with rfl | hl
        · exact List.cons_ne_nil _ _
        · exact ih l (heq ▸ List.mem_cons_of_mem _ hl)
      · intro hl
        rcases List.mem_cons.1 hl with rfl | hl
        · exact List.cons_ne_nil _ _
        · exact ih l hl
    · rw [if_neg hr] at hl
      by_cases hb : isLineBreak c = true
      · rw [if_pos hb] at hl
        rcases List.mem_cons.1 hl with rfl | hl
        · exact List.cons_ne_nil _ _
        · exact ih l hl
      · rw [if_neg hb] at hl
        revert hl
        split
        · intro hl
          rcases List.mem_cons.1 hl with rfl | hl
          · exact List.cons_ne_nil _ _
          · simp at hl
        · rename_i l0 rest heq
          intro hl
          rcases List.mem_cons.1 hl with rfl | hl
          · exact List.cons_ne_nil _ _
          · exact ih l (heq ▸ List.mem_cons_of_mem _ hl)

/-- No `splitlines` segment contains `'\n'` anywhere except possibly as
its final character. -/
theorem splitlines_dropLast_no_nl (s : List Char) :
    ∀ l ∈ splitlines s, '\n' ∉ l.dropLast := by
  induction s with
  | nil => simp [splitlines]
  | cons c cs ih =>
    intro l hl
    simp only [splitlines] at hl
    by_cases hr : c = '\r'
    · rw [if_pos hr] at hl
      revert hl
      split
      · rename_i rest heq
        intro hl
        rcases List.mem_cons.1 hl with rfl | hl
        · simp
        · exact ih l (heq ▸ List.mem_cons_of_mem _ hl)
      · intro hl
        rcases List.mem_cons.1 hl with rfl | hl
        · simp
        · exact ih l hl
    · rw [if_neg hr] at hl
      by_cases hb : isLineBreak c = true
      · rw [if_pos hb] at hl
        rcases List.mem_cons.1 hl with rfl | hl
        · simp
        · exact ih l hl
      · rw [if_neg hb] at hl
        have hcn : ¬ c = '\n' := by
          intro e
          rw [e] at hb
          exact hb (by decide)
        revert hl
        split
        · intro hl
          rcases List.mem_cons.1 hl with rfl | hl
          · simp
          · simp at hl
        · rename_i l0 rest heq
          intro hl
          rcases List.mem_cons.1 hl with rfl | hl
          · have h0 : '\n' ∉ l0.dropLast :=
              ih l0 (heq ▸ List.mem_cons_self _ _)
            cases l0 with
            | nil => simp
            | cons b t =>
              rw [List.dropLast_cons₂, List.mem_cons, not_or]
              exact ⟨fun e => hcn e.symm, h0⟩
          · exact ih l (heq ▸ List.mem_cons_of_mem _ hl)

/-- A string containing `'\n'`, but not before its last position, ends
with `'\n'`. -/
theorem nl_last_of {x : List Char} (h1 : '\n' ∉ x.dropLast)
    (h2 : '\n' ∈ x) : x.getLast? = some '\n' := by
  rcases hx : x.getLast? with _ | a
  · rw [List.getLast?_eq_none_iff] at hx
    subst hx
    simp at h2
  · have hd := List.dropLast_append_getLast? a (Option.mem_def.mpr hx)
    rw [← hd] at h2
    rcases List.mem_append.1 h2 with h | h
    · exact absurd h h1
    · simp at h
      subst h
      rfl

/-- One framing step never stores a `'\n'` into the carry, for an
arbitrary chunk. -/
theorem frameStep_carry {k c : List Char} (hk : '\n' ∉ k) :
    '\n' ∉ (frameStep k c).2 := by
  by_cases hce : c = []
  · subst hce
    simpa [frameStep] using hk
  · have hemp : c.isEmpty = false := List.isEmpty_eq_false.mpr hce
    have hnil := splitlines_ne_nil c
    have hdl := splitlines_dropLast_no_nl c
    simp only [frameStep, hemp, Bool.false_eq_true, if_false]
    split
    · simp
    · rename_i lastSeg heq
      split
      · simp
      · rename_i hcond
        have hmem : lastSeg ∈ (if k.isEmpty then splitlines c else
            match splitlines c with
            | [] => []
            | l :: t => (k ++ l) :: t) :=
          List.mem_of_mem_getLast? (Option.mem_def.mpr heq)
        by_cases hk0 : k = []
        · subst hk0
          simp only [List.isEmpty_nil, if_true] at hmem
          exact fun hin => hcond (nl_last_of (hdl _ hmem) hin)
        · have hke : k.isEmpty = false := List.isEmpty_eq_false.mpr hk0
          rw [if_neg (by simp [hke])] at hmem
          rcases hsc : splitlines c with _ | ⟨l0, t⟩
          · rw [hsc] at hmem
            simp at hmem
          · rw [hsc] at hmem
            simp only [List.mem_cons] at hmem
            rcases hmem with rfl | hmm2
            · intro hin
              rcases List.mem_append.1 hin with h | h
              · exact hk h
              · have hl0 : l0 ∈ splitlines c := by
                  rw [hsc]
                  exact List.mem_cons_self _ _
                have hlast : l0.getLast? = some '\n' :=
                  nl_last_of (hdl _ hl0) h
                refine hcond ?_
                rw [List.getLast?_append_of_ne_nil _ (hnil _ hl0)]
                exact hlast
            · intro hin
              have ht : lastSeg ∈ splitlines c := by
                rw [hsc]
                exact List.mem_cons_of_mem _ hmm2
              exact hcond (nl_last_of (hdl _ ht) hin)

/-- The carry of the framing loop never contains `'\n'`. -/
theorem runFramerFrom_carry {chunks : List (List Char)} {k : List Char}
    (hk : '\n' ∉ k) : '\n' ∉ (runFramerFrom k chunks).2 := by
  induction chunks generalizing k with
  | nil => exact hk
  | cons c cs ih =>
    simp only [runFramerFrom]
    exact ih (frameStep_carry hk)

/-! ## Framer claims -/

/-- C1: the claim as stated is false on the code.  The chunks `"a\r"` and
`"b\n"` are non-empty, their concatenation is `"a\rb\n"`, yet feeding them
one at a time emits the single line `"a\rb\n"` while the one-pass split of
the concatenation emits the two lines `"a\r"` and `"b\n"`: Python
`splitlines` treats `'\r'` as a line boundary but the carry test only
checks for `'\n'`. -/
theorem claim1_counterexample :
    "a\r".toList ≠ [] ∧ "b\n".toList ≠ [] ∧
    "a\r".toList ++ "b\n".toList = "a\rb\n".toList ∧
    (runFramer ["a\r".toList, "b\n".toList]).1 ≠
      (runFramer ["a\rb\n".toList]).1 := by
  decide

/-- C1 (amended): for every sequence of non-empty chunks in which the only
line-break character occurring is `'\n'` (in particular no carriage
return), feeding the chunks one at a time through the framing step emits
exactly the same lines, and leaves the same carry, as feeding the whole
concatenation in one pass; moreover no character is lost or duplicated:
the emitted lines followed by the final carry reassemble exactly the
concatenation of the chunks. -/
theorem claim1_chunk_boundary_independence
    (chunks : List (List Char))
    (h : ∀ ch ∈ chunks, ch ≠ [] ∧ onlyNl ch) :
    runFramer chunks = runFramer [chunks.flatten] ∧
    (runFramer chunks).1.flatten ++ (runFramer chunks).2 = chunks.flatten := by
  have hall : ∀ ch ∈ chunks, onlyNl ch := fun ch hc => (h ch hc).2
  have h1 : runFramer chunks = linesOf chunks.flatten := by
    have := runFramerFrom_eq chunks [] (by simp) hall
    simpa [runFramer] using this
  have h2 : runFramer [chunks.flatten] = linesOf chunks.flatten := by
    have hone : ∀ ch ∈ [chunks.flatten], onlyNl ch := by
      intro ch hc
      simp only [List.mem_singleton] at hc
      subst hc
      intro c hcmem hb
      rcases List.mem_flatten.1 hcmem with ⟨l, hl, hcl⟩
      exact (hall l hl) c hcl hb
    have := runFramerFrom_eq [chunks.flatten] [] (by simp) hone
    simpa [runFramer] using this
  refine ⟨h1.trans h2.symm, ?_⟩
  rw [h1]
  exact linesOf_flatten _

theorem claim1_witness :
    (∀ ch ∈ [['a'], ['b', '\n', 'c']], ch ≠ [] ∧ onlyNl ch) ∧
    (runFramer [['a'], ['b', '\n', 'c']] =
        runFramer [[['a'], ['b', '\n', 'c']].flatten] ∧
      (runFramer [['a'], ['b', '\n', 'c']]).1.flatten ++
          (runFramer [['a'], ['b', '\n', 'c']]).2 =
        [['a'], ['b', '\n', 'c']].flatten) :=
  ⟨by decide, claim1_chunk_boundary_independence _ (by decide)⟩

/-- C8: a chunk consisting of exactly one newline, processed with a
non-empty carry, emits exactly one line equal to the carry followed by the
newline, and clears the carry. -/
theorem claim8_newline_flushes_carry (k : List Char) (h : k ≠ []) :
    frameStep k ['\n'] = ([k ++ ['\n']], []) := by
  have hsp : splitlines ['\n'] = [['\n']] := rfl
  rw [frameStep_eval (List.cons_ne_nil _ _) hsp]
  simp [List.getLast?_concat]

theorem claim8_witness :
    (['x'] : List Char) ≠ [] ∧ frameStep ['x'] ['\n'] = ([['x', '\n']], []) :=
  ⟨by decide, claim8_newline_flushes_carry ['x'] (by decide)⟩

/-- C9: after processing any sequence of chunks, the carry fragment never
contains a newline character; only the final unterminated segment of a
chunk (with any previous carry prepended) is ever stored as the carry. -/
theorem claim9_carry_never_contains_newline (chunks : List (List Char)) :
    '\n' ∉ (runFramer chunks).2 :=
  runFramerFrom_carry (by simp)

/-! ## JSON values (`json.loads` results)

Python distinguishes `int` and `float` results of `json.loads`; floats are
modelled as exact rationals.  Objects keep their members in textual order;
a duplicated key is resolved by the lookup below taking the last binding,
as `dict` construction does. -/

inductive JValue where
  | jnull : JValue
  | jbool : Bool → JValue
  | jint : ℤ → JValue
  | jfloat : ℚ → JValue
  | jstr : List Char → JValue
  | jarr : List JValue → JValue
  | jobj : List (List Char × JValue) → JValue

/-- Python exceptions left uncaught by the script. -/
inductive PyErr where
  | keyError : PyErr
  | typeError : PyErr
  | zeroDiv : PyErr
deriving DecidableEq

/-- Dictionary lookup: the last binding of a key wins, as in `dict`
construction from a member list. -/
def lookupLast (key : List Char) : List (List Char × JValue) → Option JValue
  | [] => none
  | p :: rest =>
    match lookupLast key rest with
    | some v => some v
    | none => if p.1 = key then some p.2 else none

/-- Key membership test of a member list (`key in dict`). -/
def hasKey (key : List Char) (fields : List (List Char × JValue)) : Bool :=
  fields.any (fun p => p.1 = key)

/-! ## JSON parser (the behaviour of `json.loads` on one line) -/

/-- Whitespace accepted by the JSON grammar between tokens. -/
def isJsonWs (c : Char) : Bool :=
  c = ' ' || c = '\t' || c = '\n' || c = '\r'

def skipWs : List Char → List Char
  | [] => []
  | c :: cs => if isJsonWs c then skipWs cs else c :: cs

def hexVal (c : Char) : Option ℕ :=
  if 48 ≤ c.toNat ∧ c.toNat ≤ 57 then some (c.toNat - 48)
  else if 97 ≤ c.toNat ∧ c.toNat ≤ 102 then some (c.toNat - 87)
  else if 65 ≤ c.toNat ∧ c.toNat ≤ 70 then some (c.toNat - 55)
  else none

/-- Parse the body of a JSON string after the opening quote, handling the
escape sequences of the grammar (a `\uXXXX` escape is decoded as a single
code point; surrogate-pair recombination is not modelled) and rejecting
raw control characters, as the strict `json.loads` does. -/
def parseStringBody : List Char → Option (List Char × List Char)
  | [] => none
  | '"' :: rest => some ([], rest)
  | '\\' :: 'u' :: a :: b :: c :: d :: rest => do
    let va ← hexVal a
    let vb ← hexVal b
    let vc ← hexVal c
    let vd ← hexVal d
    let p ← parseStringBody rest
    pure (Char.ofNat (va * 4096 + vb * 256 + vc * 16 + vd) :: p.1, p.2)
  | '\\' :: e :: rest => do
    let c ← match e with
      | '"' => some '"'
      | '\\' => some '\\'
      | '/' => some '/'
      | 'b' => some '\x08'
      | 'f' => some '\x0c'
      | 'n' => some '\n'
      | 'r' => some '\r'
      | 't' => some '\t'
      | _ => none
    let p ← parseStringBody rest
    pure (c :: p.1, p.2)
  | c :: rest =>
    if c.toNat < 32 then none
    else do
      let p ← parseStringBody rest
      pure (c :: p.1, p.2)

def digVal (c : Char) : Option ℕ :=
  if 48 ≤ c.toNat ∧ c.toNat ≤ 57 then some (c.toNat - 48) else none

/-- Consume a maximal run of decimal digits. -/
def takeDigits : List Char → List ℕ × List Char
  | [] => ([], [])
  | c :: cs =>
    match digVal c with
    | some d =>
      let p := takeDigits cs
      (d :: p.1, p.2)
    | none => ([], c :: cs)

def digitsToNat (ds : List ℕ) : ℕ :=
  ds.foldl (fun a d => a * 10 + d) 0

/-- Parse the optional exponent part; returns the exponent (`0` when
absent), whether an exponent was present, and the rest. -/
def parseExpPart (s : List Char) : Option (ℤ × Bool × List Char) :=
  match s with
  | 'e' :: rest => parseExpTail rest
  | 'E' :: rest => parseExpTail rest
  | _ => some (0, false, s)
where
  parseExpTail (rest : List Char) : Option (ℤ × Bool × List Char) :=
    let (sign, rest1) : ℤ × List Char :=
      match rest with
      | '+' :: r => (1, r)
      | '-' :: r => (-1, r)
      | r => (1, r)
    let (ds, rest2) := takeDigits rest1
    if ds = [] then none
    else some (sign * (digitsToNat ds : ℤ), true, rest2)

/-- Parse a JSON number (strict grammar: optional minus, integer part
with no superfluous leading zero, optional fraction, optional exponent).
Yields a Python `int` exactly when neither fraction nor exponent is
present, else a `float`. -/
def parseNumber (s : List Char) : Option (JValue × List Char) :=
  let (neg, s1) : Bool × List Char :=
    match s with
    | '-' :: r => (true, r)
    | r => (false, r)
  let (ds, s2) := takeDigits s1
  if ds = [] then none
  else if 1 < ds.length ∧ ds.head? = some 0 then none
  else
    let ip : ℤ := digitsToNat ds
    let (fds, s3) : List ℕ × List Char :=
      match s2 with
      | '.' :: r => takeDigits r
      | _ => ([], s2)
    let hasFrac : Bool :=
      match s2 with
      | '.' :: _ => true
      | _ => false
    if hasFrac ∧ fds = [] then none
    else
      match parseExpPart s3 with
      | none => none
      | some (e, hasExp, s4) =>
        if ¬ hasFrac ∧ ¬ hasExp then
          some (.jint (if neg then -ip else ip), s2)
        else
          let m : ℤ := ip * (10 : ℤ) ^ fds.length + (digitsToNat fds : ℤ)
          let m := if neg then -m else m
          let mag : ℚ :=
            if 0 ≤ e then
              mkRat (m * (10 : ℤ) ^ e.toNat) ((10 : ℕ) ^ fds.length)
            else
              mkRat m ((10 : ℕ) ^ fds.length * (10 : ℕ) ^ (-e).toNat)
          some (.jfloat mag, s4)

/-- Parse the members of an object after `{` or `,`, using `pv` to parse
member values (fuel-indexed loop). -/
def parseMembers (pv : List Char → Option (JValue × List Char)) :
    ℕ → List (List Char × JValue) → List Char → Option (JValue × List Char)
  | 0, _, _ => none
  | fl + 1, acc, s =>
    match skipWs s with
    | '"' :: r =>
      match parseStringBody r with
      | none => none
      | some (key, r2) =>
        match skipWs r2 with
        | ':' :: r3 =>
          match pv r3 with
          | none => none
          | some (v, r4) =>
            match skipWs r4 with
            | ',' :: r5 => parseMembers pv fl ((key, v) :: acc) r5
            | '\x7d' :: r5 => some (.jobj ((key, v) :: acc).reverse, r5)
            | _ => none
        | _ => none
    | _ => none

/-- Parse the items of an array after `[` or `,`, using `pv` to parse the
items (fuel-indexed loop). -/
def parseItems (pv : List Char → Option (JValue × List Char)) :
    ℕ → List JValue → List Char → Option (JValue × List Char)
  | 0, _, _ => none
  | fl + 1, acc, s =>
    match pv s with
    | none => none
    | some (v, r) =>
      match skipWs r with
      | ',' :: r2 => parseItems pv fl (v :: acc) r2
      | ']' :: r2 => some (.jarr (v :: acc).reverse, r2)
      | _ => none

/-- Parse one JSON value (fuel-indexed; the fuel bounds the nesting depth
and the lengths of member/item lists, and is chosen larger than the input
length by the top-level entry point, hence never exhausted on real
input). -/
def parseVal : ℕ → List Char → Option (JValue × List Char)
  | 0, _ => none
  | fl + 1, s =>
    match skipWs s with
    | '\x7b' :: r =>
      (match skipWs r with
       | '\x7d' :: r2 => some (.jobj [], r2)
       | _ => parseMembers (parseVal fl) fl [] r)
    | '[' :: r =>
      (match skipWs r with
       | ']' :: r2 => some (.jarr [], r2)
       | _ => parseItems (parseVal fl) fl [] r)
    | '"' :: r => do
      let p ← parseStringBody r
      pure (.jstr p.1, p.2)
    | 't' :: 'r' :: 'u' :: 'e' :: r => some (.jbool true, r)
    | 'f' :: 'a' :: 'l' :: 's' :: 'e' :: r => some (.jbool false, r)
    | 'n' :: 'u' :: 'l' :: 'l' :: r => some (.jnull, r)
    | s1 => parseNumber s1

/-- `json.loads`: parse one complete JSON document, allowing only
whitespace after it. -/
def jsonParse (s : List Char) : Option JValue :=
  match parseVal (s.length + 1) s with
  | some (v, r) => if skipWs r = [] then some v else none
  | none => none

/-! ## `parse_line` (lines 17-25) -/

/-- Whitespace stripped by Python `str.strip()`. -/
def isPyWs (c : Char) : Bool :=
  c = ' ' || c = '\t' || c = '\n' || c = '\r' || c = '\x0b' || c = '\x0c'

def pyStrip (s : List Char) : List Char :=
  ((s.dropWhile isPyWs).reverse.dropWhile isPyWs).reverse

/-- `parse_line`: strip the line and parse it with `json.loads`,
returning `none` on a decode error.  A parsed JSON `null` is Python
`None` and is indistinguishable from a decode failure at the caller
(`if data is None: continue`), so it collapses to `none` as well. -/
def parse_line (line : List Char) : Option JValue :=
  match jsonParse (pyStrip line) with
  | some .jnull => none
  | r => r

/-! ## Python value operations used by the script

Rational results are built with `mkRat`/`Rat.divInt` (reduced fractions);
bridge lemmas below relate them to the field operations of `ℚ`. -/

/-- `value != -1` on a parsed JSON value: numeric values compare
numerically (`-1.0 == -1` in Python), every non-numeric value is simply
unequal to `-1`; Python `bool` is numeric but both `True` and `False`
differ from `-1`. -/
def jNeNegOne (v : JValue) : Bool :=
  match v with
  | .jint n => decide (n ≠ -1)
  | .jfloat q => decide (q ≠ mkRat (-1) 1)
  | _ => true

/-- `value / dim` for an integer screen dimension: numeric values divide
(true division, always a `float`), any other operand raises `TypeError`,
and a zero dimension raises `ZeroDivisionError`. -/
def pyDiv (v : JValue) (dim : ℤ) : Except PyErr ℚ :=
  match v with
  | .jint n => if dim = 0 then .error .zeroDiv else .ok (Rat.divInt n dim)
  | .jfloat q =>
    if dim = 0 then .error .zeroDiv
    else .ok (Rat.divInt q.num (q.den * dim))
  | .jbool b =>
    if dim = 0 then .error .zeroDiv
    else .ok (Rat.divInt (if b then 1 else 0) dim)
  | _ => .error .typeError

/-- `data[key]`: subscription with a string key succeeds only on a
dictionary (`KeyError` when absent); on any other value it raises
`TypeError`. -/
def pySub (v : JValue) (key : List Char) : Except PyErr JValue :=
  match v with
  | .jobj fields =>
    match lookupLast key fields with
    | some x => .ok x
    | none => .error .keyError
  | _ => .error .typeError

def startsWith : List Char → List Char → Bool
  | [], _ => true
  | _ :: _, [] => false
  | a :: t1, b :: t2 => a = b && startsWith t1 t2

/-- Contiguous-substring test (`needle in haystack` on Python strings). -/
def strContains (needle : List Char) : List Char → Bool
  | [] => startsWith needle []
  | c :: t => startsWith needle (c :: t) || strContains needle t

/-- `key in data`: key test on a dictionary, element test on a list
(a string equals only an equal string), substring test on a string;
on `None`, booleans and numbers it raises `TypeError`
(the value is not iterable). -/
def pyContains (key : List Char) (v : JValue) : Except PyErr Bool :=
  match v with
  | .jobj fields => .ok (hasKey key fields)
  | .jarr xs =>
    .ok (xs.any (fun x =>
      match x with
      | .jstr s => s = key
      | _ => false))
  | .jstr s => .ok (strContains key s)
  | _ => .error .typeError

/-- `value != expected` for a string expectation: a parsed string compares
by content, every other value is unequal. -/
def jNeStr (v : JValue) (s : List Char) : Bool :=
  match v with
  | .jstr t => decide (t ≠ s)
  | _ => true

/-! ## `filter_data` (lines 28-39) -/

def keyDeviceName : List Char := "DeviceName".toList
def keySampleName : List Char := "SampleName".toList

/-- `filter_data(data, device_name, sample_name)`: reject when either key
is missing; then reject when a non-`None` expected device name differs or
a non-`None` expected sample name differs (Python's short-circuit `or` and
`and` order of the two membership tests and the two comparisons is
preserved); otherwise return the record unchanged. -/
def filter_data (data : JValue) (device_name : Option (List Char))
    (sample_name : Option (List Char)) : Except PyErr (Option JValue) := do
  let b1 ← pyContains keyDeviceName data
  if ¬ b1 then
    pure none
  else do
    let b2 ← pyContains keySampleName data
    if ¬ b2 then
      pure none
    else do
      let c1 ← match device_name with
        | none => pure false
        | some dn => do
          let v ← pySub data keyDeviceName
          pure (jNeStr v dn)
      if c1 then
        pure none
      else do
        let c2 ← match sample_name with
          | none => pure false
          | some sn => do
            let v ← pySub data keySampleName
            pure (jNeStr v sn)
        if c2 then
          pure none
        else
          pure (some data)

/-! ## `EyeSide` and `is_gaze_valid` (lines 42-52) -/

inductive EyeSide where
  | left : EyeSide
  | right : EyeSide

def EyeSide.value : EyeSide → List Char
  | .left => "Left".toList
  | .right => "Right".toList

/-- `is_gaze_valid(data, eye)`: look up the two gaze coordinates of one
eye, short-circuiting on the first sentinel, and treat a missing key
(`KeyError`) as invalid.  (Defined by the script but never called by
`process_events`.) -/
def is_gaze_valid (data : JValue) (eye : EyeSide) : Except PyErr Bool :=
  match pySub data ("Gaze".toList ++ eye.value ++ ['X']) with
  | .error .keyError => .ok false
  | .error e => .error e
  | .ok vx =>
    if jNeNegOne vx then
      match pySub data ("Gaze".toList ++ eye.value ++ ['Y']) with
      | .error .keyError => .ok false
      | .error e => .error e
      | .ok vy => .ok (jNeNegOne vy)
    else
      .ok false

/-! ## Rendering (`str()` of the format arguments)

Python renders each format argument with `str()`.  Integers print in
decimal; floats print their shortest round-tripping decimal, which for
the exact rationals produced here is the terminating decimal expansion
(computed below digit by digit; expansion is cut off after 17 digits,
the length Python never exceeds — values needing more are not produced
by the verified scenarios).  `str()` of nested containers is rendered
structurally with `repr`-style quoting of strings (escape sequences
inside nested strings are not re-escaped). -/

def natDigitsAux : ℕ → ℕ → List Char
  | 0, _ => []
  | _ + 1, 0 => []
  | fl + 1, n => natDigitsAux fl (n / 10) ++ [Char.ofNat (48 + n % 10)]

def natStr (n : ℕ) : List Char :=
  if n = 0 then ['0'] else natDigitsAux (n + 1) n

def intStr (n : ℤ) : List Char :=
  if n < 0 then '-' :: natStr n.natAbs else natStr n.natAbs

/-- Decimal digits of `num / den` (`0 ≤ num < den`), stopping at the end
of the expansion or after the fuel is exhausted. -/
def fracDigits : ℕ → ℤ → ℤ → List Char
  | 0, _, _ => []
  | fl + 1, num, den =>
    if num = 0 then []
    else
      let n10 := num * 10
      let d := n10 / den
      Char.ofNat (48 + d.toNat) :: fracDigits fl (n10 - d * den) den

def floatStrNN (num den : ℤ) : List Char :=
  natStr (num / den).toNat ++
    '.' :: (let ds := fracDigits 17 (num % den) den
            if ds = [] then ['0'] else ds)

/-- `str()` of a Python float, on the exact rational model. -/
def floatStr (q : ℚ) : List Char :=
  if q.num < 0 then '-' :: floatStrNN (-q.num) q.den
  else floatStrNN q.num q.den

/-- The ASCII single-quote character used by `repr()` around strings. -/
def quoteChar : Char := Char.ofNat 39

/-- `repr()` of a parsed JSON value (fuel-indexed for nesting). -/
def reprJ : ℕ → JValue → List Char
  | _, .jnull => "None".toList
  | _, .jbool b => if b then "True".toList else "False".toList
  | _, .jint n => intStr n
  | _, .jfloat q => floatStr q
  | _, .jstr s => quoteChar :: (s ++ [quoteChar])
  | 0, _ => []
  | fl + 1, .jarr xs =>
    '[' :: (List.intercalate ", ".toList (xs.map (reprJ fl)) ++ [']'])
  | fl + 1, .jobj fs =>
    '\x7b' :: (List.intercalate ", ".toList
      (fs.map (fun p => quoteChar :: (p.1 ++ [quoteChar, ':', ' '] ++ reprJ fl p.2))) ++ ['\x7d'])

/-- `str()` of a parsed JSON value (differs from `repr` only on
strings). -/
def pyStrJ (v : JValue) : List Char :=
  match v with
  | .jstr s => s
  | v => reprJ 100 v

/-- One format argument: either a float computed by the script or a raw
parsed value passed through. -/
inductive PyVal where
  | pFloat : ℚ → PyVal
  | pRaw : JValue → PyVal

def pyStrVal : PyVal → List Char
  | .pFloat q => floatStr q
  | .pRaw v => pyStrJ v

/-! ## Gaze formatter (`process_events`, lines 112-128) -/

def keyGazeLeftX : List Char := "GazeLeftX".toList
def keyGazeLeftY : List Char := "GazeLeftY".toList
def keyGazeRightX : List Char := "GazeRightX".toList
def keyGazeRightY : List Char := "GazeRightY".toList
def keyPupilLeft : List Char := "PupilLeft".toList
def keyPupilRight : List Char := "PupilRight".toList

/-- `data[key] / dim if data[key] != -1 else -1.0`: the conditional is
evaluated first; only a non-sentinel value is divided. -/
def condDiv (data : JValue) (key : List Char) (dim : ℤ) :
    Except PyErr PyVal := do
  let v ← pySub data key
  if jNeNegOne v then
    let q ← pyDiv v dim
    pure (.pFloat q)
  else
    pure (.pFloat (-1))

/-- `1.0 if (data[kx] != -1 and data[ky] != -1) else 0.0`: the `and`
short-circuits, so the second key is only read when the first value is
not the sentinel. -/
def validFlag (data : JValue) (kx ky : List Char) : Except PyErr PyVal := do
  let vx ← pySub data kx
  if jNeNegOne vx then
    let vy ← pySub data ky
    pure (.pFloat (if jNeNegOne vy then 1 else 0))
  else
    pure (.pFloat 0)

/-- `1.0 if data[key] != -1 else 0.0`. -/
def pupilFlag (data : JValue) (key : List Char) : Except PyErr PyVal := do
  let v ← pySub data key
  pure (.pFloat (if jNeNegOne v then 1 else 0))

/-- The text of the format template after the timestamp argument:
`"; {}, {}, {}, {}, {}; {}, {}, {}, {}, {}"` applied to the ten
computed values. -/
def fmtTail (a b c d e f g h i j : PyVal) : List Char :=
  "; ".toList ++ pyStrVal a ++ ", ".toList ++ pyStrVal b ++
  ", ".toList ++ pyStrVal c ++ ", ".toList ++ pyStrVal d ++
  ", ".toList ++ pyStrVal e ++ "; ".toList ++ pyStrVal f ++
  ", ".toList ++ pyStrVal g ++ ", ".toList ++ pyStrVal h ++
  ", ".toList ++ pyStrVal i ++ ", ".toList ++ pyStrVal j

/-- The ten format arguments after the timestamp, evaluated left to
right exactly as in the `message = '...'.format(...)` call: normalized
left gaze X and Y, left validity, raw left pupil, left pupil validity,
then the same five for the right eye.  Any `KeyError`/`TypeError` raised
by an argument expression aborts the whole statement. -/
def formatTail (data : JValue) (w h : ℤ) : Except PyErr (List Char) := do
  let a ← condDiv data keyGazeLeftX w
  let b ← condDiv data keyGazeLeftY h
  let c ← validFlag data keyGazeLeftX keyGazeLeftY
  let d ← pySub data keyPupilLeft
  let e ← pupilFlag data keyPupilLeft
  let f ← condDiv data keyGazeRightX w
  let g ← condDiv data keyGazeRightY h
  let h2 ← validFlag data keyGazeRightX keyGazeRightY
  let i ← pySub data keyPupilRight
  let j ← pupilFlag data keyPupilRight
  pure (fmtTail a b c (.pRaw d) e f g h2 (.pRaw i) j)

/-- The full output line: the wall-clock timestamp in milliseconds
(modelled as a parameter) rendered in front of the tail. -/
def fullMessage (ts : ℤ) (tail : List Char) : List Char :=
  intStr ts ++ tail

/-! ## The per-line body of `process_events` (lines 102-128) -/

/-- Process one complete line: parse it (a decode failure or JSON `null`
skips the line), filter it with no expected device name and expected
sample name `"EyeData"` — exactly the call
`filter_data(data, sample_name='EyeData')` — then format the accepted
record.  `ok none` is a skipped line, `ok (some tail)` an emitted output
line (without its timestamp prefix), `error` an uncaught exception. -/
def processLine (w h : ℤ) (line : List Char) :
    Except PyErr (Option (List Char)) :=
  match parse_line line with
  | none => .ok none
  | some data => do
    let fd ← filter_data data none (some "EyeData".toList)
    match fd with
    | none => pure none
    | some d => do
      let t ← formatTail d w h
      pure (some t)

/-- Process the lines of one chunk in order; an uncaught exception stops
the loop (and the session), discarding no previously printed line. -/
def processLines (w h : ℤ) : List (List Char) → List (List Char) × Option PyErr
  | [] => ([], none)
  | l :: ls =>
    match processLine w h l with
    | .error e => ([], some e)
    | .ok none => processLines w h ls
    | .ok (some m) =>
      let p := processLines w h ls
      (m :: p.1, p.2)

/-- The mutable state of one `process_events` session: the carry
fragment, the output lines (tails) printed so far, and the uncaught
exception that terminated the session, if any. -/
structure SessionState where
  carry : List Char
  out : List (List Char)
  err : Option PyErr
deriving DecidableEq

/-- One iteration of the `while True` loop on a received chunk: frame the
chunk against the carry, then run the parse/filter/format body over each
complete line.  After an uncaught exception nothing further is
processed. -/
def sessionStep (w h : ℤ) (st : SessionState) (chunk : List Char) :
    SessionState :=
  match st.err with
  | some _ => st
  | none =>
    let p := frameStep st.carry chunk
    let q := processLines w h p.1
    ⟨p.2, st.out ++ q.1, q.2⟩

/-- Run a session from the start state over a sequence of received
chunks. -/
def runSession (w h : ℤ) (chunks : List (List Char)) : SessionState :=
  chunks.foldl (sessionStep w h) ⟨[], [], none⟩

/-! ## Lookup lemmas -/

theorem hasKey_of_lookupLast {key : List Char}
    {fields : List (List Char × JValue)} {v : JValue}
    (h : lookupLast key fields = some v) : hasKey key fields = true := by
  induction fields generalizing v with
  | nil => exact Option.noConfusion h
  | cons p rest ih =>
    simp only [lookupLast] at h
    simp only [hasKey, List.any_cons]
    rcases hr : lookupLast key rest with _ | w
    · rw [hr] at h
      simp only [] at h
      by_cases hp : p.1 = key
      · simp [hp]
      · rw [if_neg hp] at h
        exact Option.noConfusion h
    · have := ih hr
      simp only [hasKey] at this
      simp [this]

theorem lookupLast_none_hasKey {key : List Char}
    {fields : List (List Char × JValue)}
    (h : lookupLast key fields = none) : hasKey key fields = false := by
  induction fields with
  | nil => simp [hasKey]
  | cons p rest ih =>
    simp only [lookupLast] at h
    rcases hr : lookupLast key rest with _ | w
    · rw [hr] at h
      simp only [] at h
      by_cases hp : p.1 = key
      · rw [if_pos hp] at h
        exact Option.noConfusion h
      · have ih' := ih hr
        simp only [hasKey, List.any_cons] at ih' ⊢
        rw [ih', Bool.or_false]
        exact decide_eq_false hp
    · rw [hr] at h
      exact Option.noConfusion h

/-! ## Filter behaviour on validated records -/

/-- An optional expectation matches a value exactly when it is absent, or
the value is the equal string (exact, case-sensitive). -/
def optMatches : Option (List Char) → JValue → Bool
  | none, _ => true
  | some s, v =>
    match v with
    | .jstr t => decide (t = s)
    | _ => false

theorem optMatches_eq_not_jNeStr (s : List Char) (v : JValue) :
    optMatches (some s) v = !(jNeStr v s) := by
  cases v <;> simp [optMatches, jNeStr]

theorem optMatches_none (v : JValue) : optMatches none v = true := rfl

/-- On a record carrying both required keys, `filter_data` returns the
record unchanged exactly when both optional expectations match, and
discards it otherwise, raising nothing. -/
theorem filter_data_spec {fields : List (List Char × JValue)}
    {dv sv : JValue}
    (hd : lookupLast keyDeviceName fields = some dv)
    (hs : lookupLast keySampleName fields = some sv)
    (dn sn : Option (List Char)) :
    filter_data (.jobj fields) dn sn =
      .ok (if optMatches dn dv && optMatches sn sv
           then some (.jobj fields) else none) := by
  have hd' : hasKey keyDeviceName fields = true := hasKey_of_lookupLast hd
  have hs' : hasKey keySampleName fields = true := hasKey_of_lookupLast hs
  simp only [filter_data, pyContains, pySub, hd, hs, hd', hs', Except.bind,
    bind, pure, Except.pure, not_true, if_false, Bool.not_eq_true]
  cases dn with
  | none =>
    cases sn with
    | none => simp [optMatches]
    | some sn' =>
      cases hne : jNeStr sv sn' <;>
        simp [optMatches_eq_not_jNeStr, optMatches_none, hne, Except.bind,
          bind, pure, Except.pure]
  | some dn' =>
    cases hne : jNeStr dv dn' <;>
      cases sn with
      | none =>
        simp [optMatches_eq_not_jNeStr, optMatches_none, hne, Except.bind,
          bind, pure, Except.pure]
      | some sn' =>
        cases hne2 : jNeStr sv sn' <;>
          simp [optMatches_eq_not_jNeStr, optMatches_none, hne, hne2,
            Except.bind, bind, pure, Except.pure]

/-- `filter_data` discards (without raising) any record missing one of
the two required keys, whatever the expectations are. -/
theorem filter_data_missing {fields : List (List Char × JValue)}
    (hmiss : lookupLast keyDeviceName fields = none ∨
      lookupLast keySampleName fields = none)
    (dn sn : Option (List Char)) :
    filter_data (.jobj fields) dn sn = .ok none := by
  rcases hmiss with h | h
  · have hk := lookupLast_none_hasKey h
    simp [filter_data, pyContains, hk, bind, Except.bind, pure, Except.pure]
  · have hk := lookupLast_none_hasKey h
    cases hb1 : hasKey keyDeviceName fields <;>
      simp [filter_data, pyContains, hk, hb1, bind, Except.bind, pure,
        Except.pure]

theorem processLine_skip (w h : ℤ) {line : List Char}
    {fields : List (List Char × JValue)}
    (hp : parse_line line = some (.jobj fields))
    (hf : filter_data (.jobj fields) none (some "EyeData".toList) = .ok none) :
    processLine w h line = .ok none := by
  simp only [processLine, hp, hf, bind, Except.bind, pure, Except.pure]

/-! ## Filter claims -/

/-- C6: on a validated record (both required keys present), the filter
returns the record unchanged exactly when `DeviceName` and `SampleName`
match the respective expectations under exact case-sensitive string
equality, a `none` expectation matching anything; otherwise it yields
`none`, so no output line is produced for the record. -/
theorem claim6_filter_exact_match (fields : List (List Char × JValue))
    {dv sv : JValue}
    (hd : lookupLast keyDeviceName fields = some dv)
    (hs : lookupLast keySampleName fields = some sv)
    (dn sn : Option (List Char)) :
    filter_data (.jobj fields) dn sn =
      .ok (if optMatches dn dv && optMatches sn sv
           then some (.jobj fields) else none) :=
  filter_data_spec hd hs dn sn

theorem claim6_witness :
    lookupLast keyDeviceName
        [(keyDeviceName, .jstr "T".toList), (keySampleName, .jstr "EyeData".toList)] =
      some (.jstr "T".toList) ∧
    lookupLast keySampleName
        [(keyDeviceName, .jstr "T".toList), (keySampleName, .jstr "EyeData".toList)] =
      some (.jstr "EyeData".toList) ∧
    filter_data
        (.jobj [(keyDeviceName, .jstr "T".toList),
                (keySampleName, .jstr "EyeData".toList)])
        (some "T".toList) (some "EyeData".toList) =
      .ok (if optMatches (some "T".toList) (.jstr "T".toList) &&
              optMatches (some "EyeData".toList) (.jstr "EyeData".toList)
           then some (.jobj [(keyDeviceName, .jstr "T".toList),
                             (keySampleName, .jstr "EyeData".toList)])
           else none) :=
  ⟨rfl, rfl,
    claim6_filter_exact_match
      [(keyDeviceName, .jstr "T".toList), (keySampleName, .jstr "EyeData".toList)]
      rfl rfl (some "T".toList) (some "EyeData".toList)⟩

/-- C7: a successfully parsed record missing `DeviceName` or `SampleName`
is discarded by the filter without raising, produces no output line, and
the session goes on to process the remaining lines. -/
theorem claim7_missing_required_keys (w h : ℤ) (line : List Char)
    (fields : List (List Char × JValue))
    (hp : parse_line line = some (.jobj fields))
    (hmiss : lookupLast keyDeviceName fields = none ∨
      lookupLast keySampleName fields = none) :
    processLine w h line = .ok none ∧
    ∀ ls, processLines w h (line :: ls) = processLines w h ls := by
  have hf := filter_data_missing hmiss none (some "EyeData".toList)
  have hskip := processLine_skip w h hp hf
  exact ⟨hskip, fun ls => by simp [processLines, hskip]⟩

theorem claim7_witness :
    parse_line "\x7b\"a\":1\x7d".toList = some (.jobj [("a".toList, .jint 1)]) ∧
    lookupLast keyDeviceName [("a".toList, .jint 1)] = none ∧
    (processLine 1920 1080 "\x7b\"a\":1\x7d".toList = .ok none ∧
     ∀ ls, processLines 1920 1080 ("\x7b\"a\":1\x7d".toList :: ls) =
       processLines 1920 1080 ls) :=
  ⟨rfl, rfl,
    claim7_missing_required_keys 1920 1080 "\x7b\"a\":1\x7d".toList
      [("a".toList, .jint 1)] rfl (Or.inl rfl)⟩

/-- C10: `process_events` calls
`filter_data(data, sample_name='EyeData')`, leaving the expected device
name at its `None` default, so a record carrying both keys is accepted
exactly when its `SampleName` is the string `"EyeData"` — whatever value
(of whatever type) its `DeviceName` holds. -/
theorem claim10_device_identity_ignored (fields : List (List Char × JValue))
    {dv sv : JValue}
    (hd : lookupLast keyDeviceName fields = some dv)
    (hs : lookupLast keySampleName fields = some sv) :
    filter_data (.jobj fields) none (some "EyeData".toList) =
      .ok (if optMatches (some "EyeData".toList) sv
           then some (.jobj fields) else none) := by
  rw [filter_data_spec hd hs none (some "EyeData".toList), optMatches_none,
    Bool.true_and]

theorem claim10_witness :
    lookupLast keyDeviceName
        [(keyDeviceName, .jint 7), (keySampleName, .jstr "EyeData".toList)] =
      some (.jint 7) ∧
    lookupLast keySampleName
        [(keyDeviceName, .jint 7), (keySampleName, .jstr "EyeData".toList)] =
      some (.jstr "EyeData".toList) ∧
    filter_data
        (.jobj [(keyDeviceName, .jint 7),
                (keySampleName, .jstr "EyeData".toList)])
        none (some "EyeData".toList) =
      .ok (if optMatches (some "EyeData".toList) (.jstr "EyeData".toList)
           then some (.jobj [(keyDeviceName, .jint 7),
                             (keySampleName, .jstr "EyeData".toList)])
           else none) :=
  ⟨rfl, rfl,
    claim10_device_identity_ignored
      [(keyDeviceName, .jint 7), (keySampleName, .jstr "EyeData".toList)]
      rfl rfl⟩

/-! ## Numeric semantics of format arguments -/

/-- The numeric reading of a parsed JSON value, when it has one
(Python `bool` is numeric: `True == 1`, `False == 0`). -/
def toNum : JValue → Option ℚ
  | .jint n => some (mkRat n 1)
  | .jfloat q => some q
  | .jbool b => some (if b then 1 else 0)
  | _ => none

theorem mkRat_one_eq (n : ℤ) : mkRat n 1 = (n : ℚ) := by
  rw [Rat.mkRat_eq_div]
  norm_num

theorem divInt_num_den (a : ℚ) (d : ℤ) :
    Rat.divInt a.num (a.den * d) = a / d := by
  rw [Rat.divInt_eq_div]
  push_cast
  rw [← div_div, Rat.num_div_den]

/-- The sentinel test `value != -1` agrees with the numeric reading. -/
theorem jNeNegOne_eq {v : JValue} {q : ℚ} (h : toNum v = some q) :
    jNeNegOne v = decide (q ≠ -1) := by
  cases v with
  | jint n =>
    simp only [toNum, Option.some_inj] at h
    subst h
    simp only [jNeNegOne]
    rw [decide_eq_decide, mkRat_one_eq]
    have hcast : ((n : ℚ) = -1) ↔ n = -1 := by exact_mod_cast Iff.rfl
    exact not_congr hcast.symm
  | jfloat q' =>
    simp only [toNum, Option.some_inj] at h
    subst h
    simp only [jNeNegOne]
    rw [decide_eq_decide, mkRat_one_eq]
    norm_num
  | jbool b =>
    simp only [toNum, Option.some_inj] at h
    subst h
    simp only [jNeNegOne]
    symm
    rw [decide_eq_true_eq]
    cases b <;> norm_num
  | jnull => exact Option.noConfusion h
  | jstr s => exact Option.noConfusion h
  | jarr xs => exact Option.noConfusion h
  | jobj fs => exact Option.noConfusion h

/-- Division agrees with the numeric reading (for a non-zero screen
dimension). -/
theorem pyDiv_eq {v : JValue} {q : ℚ} (h : toNum v = some q) {d : ℤ}
    (hd : d ≠ 0) : pyDiv v d = .ok (q / (d : ℚ)) := by
  cases v with
  | jint n =>
    simp only [toNum, Option.some_inj] at h
    subst h
    simp only [pyDiv, if_neg hd, Rat.divInt_eq_div, mkRat_one_eq]
  | jfloat q' =>
    simp only [toNum, Option.some_inj] at h
    subst h
    simp only [pyDiv, if_neg hd, divInt_num_den]
  | jbool b =>
    simp only [toNum, Option.some_inj] at h
    subst h
    simp only [pyDiv, if_neg hd, Rat.divInt_eq_div]
    cases b <;> norm_num
  | jnull => exact Option.noConfusion h
  | jstr s => exact Option.noConfusion h
  | jarr xs => exact Option.noConfusion h
  | jobj fs => exact Option.noConfusion h

/-- The normalized-coordinate argument: the sentinel is passed through as
`-1.0`, any other value is divided by the screen dimension, decided on
the raw value. -/
theorem condDiv_eq {fields : List (List Char × JValue)} {key : List Char}
    {v : JValue} {q : ℚ} {d : ℤ}
    (hl : lookupLast key fields = some v) (hn : toNum v = some q)
    (hd : d ≠ 0) :
    condDiv (.jobj fields) key d =
      .ok (.pFloat (if q = -1 then -1 else q / (d : ℚ))) := by
  simp only [condDiv, pySub, hl, bind, Except.bind, pure, Except.pure,
    jNeNegOne_eq hn]
  by_cases hq : q = -1
  · simp [hq]
  · have hb : decide (q ≠ -1) = true := decide_eq_true hq
    simp only [hb, if_true, pyDiv_eq hn hd, Except.bind, bind, pure,
      Except.pure, if_neg hq]

/-- The per-eye validity argument is a function of the two raw
coordinates alone. -/
theorem validFlag_eq {fields : List (List Char × JValue)}
    {kx ky : List Char} {vx vy : JValue} {qx qy : ℚ}
    (hx : lookupLast kx fields = some vx)
    (hy : lookupLast ky fields = some vy)
    (hnx : toNum vx = some qx) (hny : toNum vy = some qy) :
    validFlag (.jobj fields) kx ky =
      .ok (.pFloat (if qx ≠ -1 ∧ qy ≠ -1 then 1 else 0)) := by
  simp only [validFlag, pySub, hx, hy, bind, Except.bind, pure, Except.pure,
    jNeNegOne_eq hnx, jNeNegOne_eq hny]
  by_cases h1 : qx = -1 <;> by_cases h2 : qy = -1 <;> simp [h1, h2]

/-- The pupil-validity argument is decided on the raw pupil value. -/
theorem pupilFlag_eq {fields : List (List Char × JValue)} {key : List Char}
    {v : JValue} (hl : lookupLast key fields = some v) :
    pupilFlag (.jobj fields) key =
      .ok (.pFloat (if jNeNegOne v then 1 else 0)) := by
  simp only [pupilFlag, pySub, hl, bind, Except.bind, pure, Except.pure]

/-! ## Formatter claims -/

/-- C4: on an accepted record whose gaze fields are numeric (and whose
pupil fields are present), for each eye side independently the normalized
X is `-1.0` when the raw X is the sentinel `-1` and `rawX / screen_width`
otherwise (same for Y against the height), the eye's validity flag is
`1.0` exactly when both raw coordinates differ from the sentinel
(computed from the raw values, so normalization never alters the
decision), and the raw pupil value is passed through with its own
sentinel flag. -/
theorem claim4_normalization_and_validity
    (fields : List (List Char × JValue))
    {vlx vly vrx vry vpl vpr : JValue} {lx ly rx ry : ℚ} {w h : ℤ}
    (hw : w ≠ 0) (hh : h ≠ 0)
    (hlx : lookupLast keyGazeLeftX fields = some vlx)
    (hly : lookupLast keyGazeLeftY fields = some vly)
    (hrx : lookupLast keyGazeRightX fields = some vrx)
    (hry : lookupLast keyGazeRightY fields = some vry)
    (hpl : lookupLast keyPupilLeft fields = some vpl)
    (hpr : lookupLast keyPupilRight fields = some vpr)
    (hnlx : toNum vlx = some lx) (hnly : toNum vly = some ly)
    (hnrx : toNum vrx = some rx) (hnry : toNum vry = some ry) :
    formatTail (.jobj fields) w h =
      .ok (fmtTail
        (.pFloat (if lx = -1 then -1 else lx / (w : ℚ)))
        (.pFloat (if ly = -1 then -1 else ly / (h : ℚ)))
        (.pFloat (if lx ≠ -1 ∧ ly ≠ -1 then 1 else 0))
        (.pRaw vpl)
        (.pFloat (if jNeNegOne vpl then 1 else 0))
        (.pFloat (if rx = -1 then -1 else rx / (w : ℚ)))
        (.pFloat (if ry = -1 then -1 else ry / (h : ℚ)))
        (.pFloat (if rx ≠ -1 ∧ ry ≠ -1 then 1 else 0))
        (.pRaw vpr)
        (.pFloat (if jNeNegOne vpr then 1 else 0))) := by
  simp only [formatTail, bind, Except.bind, pure, Except.pure,
    condDiv_eq hlx hnlx hw, condDiv_eq hly hnly hh,
    condDiv_eq hrx hnrx hw, condDiv_eq hry hnry hh,
    validFlag_eq hlx hly hnlx hnly, validFlag_eq hrx hry hnrx hnry,
    pySub, hpl, hpr, pupilFlag_eq hpl, pupilFlag_eq hpr]

/-- Concrete accepted record used to witness the formatter claims. -/
def witnessRecord : List (List Char × JValue) :=
  [(keyGazeLeftX, .jint 960), (keyGazeLeftY, .jint 540),
   (keyGazeRightX, .jint (-1)), (keyGazeRightY, .jint (-1)),
   (keyPupilLeft, .jfloat (mkRat 16 5)), (keyPupilRight, .jint (-1))]

theorem claim4_witness :
    ((1920 : ℤ) ≠ 0 ∧ (1080 : ℤ) ≠ 0 ∧
     lookupLast keyGazeLeftX witnessRecord = some (.jint 960) ∧
     lookupLast keyGazeLeftY witnessRecord = some (.jint 540) ∧
     lookupLast keyGazeRightX witnessRecord = some (.jint (-1)) ∧
     lookupLast keyGazeRightY witnessRecord = some (.jint (-1)) ∧
     lookupLast keyPupilLeft witnessRecord = some (.jfloat (mkRat 16 5)) ∧
     lookupLast keyPupilRight witnessRecord = some (.jint (-1)) ∧
     toNum (.jint 960) = some (mkRat 960 1) ∧
     toNum (.jint 540) = some (mkRat 540 1) ∧
     toNum (.jint (-1)) = some (mkRat (-1) 1) ∧
     toNum (.jint (-1)) = some (mkRat (-1) 1)) ∧
    formatTail (.jobj witnessRecord) 1920 1080 =
      .ok (fmtTail
        (.pFloat (if mkRat 960 1 = -1 then -1
                  else mkRat 960 1 / ((1920 : ℤ) : ℚ)))
        (.pFloat (if mkRat 540 1 = -1 then -1
                  else mkRat 540 1 / ((1080 : ℤ) : ℚ)))
        (.pFloat (if mkRat 960 1 ≠ -1 ∧ mkRat 540 1 ≠ -1 then 1 else 0))
        (.pRaw (.jfloat (mkRat 16 5)))
        (.pFloat (if jNeNegOne (.jfloat (mkRat 16 5)) then 1 else 0))
        (.pFloat (if mkRat (-1) 1 = -1 then -1
                  else mkRat (-1) 1 / ((1920 : ℤ) : ℚ)))
        (.pFloat (if mkRat (-1) 1 = -1 then -1
                  else mkRat (-1) 1 / ((1080 : ℤ) : ℚ)))
        (.pFloat (if mkRat (-1) 1 ≠ -1 ∧ mkRat (-1) 1 ≠ -1 then 1 else 0))
        (.pRaw (.jint (-1)))
        (.pFloat (if jNeNegOne (.jint (-1)) then 1 else 0))) :=
  ⟨⟨by decide, by decide, rfl, rfl, rfl, rfl, rfl, rfl, rfl, rfl, rfl, rfl⟩,
   claim4_normalization_and_validity witnessRecord (by decide) (by decide)
     rfl rfl rfl rfl rfl rfl rfl rfl rfl rfl⟩

set_option maxRecDepth 100000 in
/-- C2: the claim describes dropping a record that lacks a required
numeric field, but the code performs a bare `data['GazeLeftX']` lookup
with no handler: on the accepted `EyeData` record
`{"DeviceName":"T","SampleName":"EyeData"}` the lookup raises `KeyError`,
which propagates out of `process_events` (no `except*` clause of
`connect` matches it), terminating the session with no output —
the unused `is_gaze_valid` helper shows the intended `KeyError`
handling. -/
theorem claim2_missing_field_crashes_session :
    processLine 1920 1080
        "\x7b\"DeviceName\":\"T\",\"SampleName\":\"EyeData\"\x7d".toList =
      .error .keyError ∧
    runSession 1920 1080
        ["\x7b\"DeviceName\":\"T\",\"SampleName\":\"EyeData\"\x7d\n".toList] =
      ⟨[], [], some .keyError⟩ :=
  ⟨rfl, rfl⟩

set_option maxRecDepth 100000 in
/-- C3: the claim says a line that is not a well-formed record is
discarded without terminating the session, and `parse_line` does catch
every JSON decode error; but a line holding valid JSON that is not an
object — such as `5` — parses successfully (contradicting the
`dict | None` annotation of `parse_line`) and then
`'DeviceName' not in data` in `filter_data` raises `TypeError` on the
non-container, which no handler catches: the session terminates. -/
theorem claim3_nonrecord_json_crashes_session :
    parse_line "5".toList = some (.jint 5) ∧
    processLine 1920 1080 "5".toList = .error .typeError ∧
    runSession 1920 1080 ["5\n".toList] = ⟨[], [], some .typeError⟩ :=
  ⟨rfl, rfl, rfl⟩

set_option maxRecDepth 1000000 in
/-- C5: delivering the scenario chunk with screen 1920 by 1080 emits
exactly one output line whose fields after the timestamp are
`"; 0.5, 0.5, 1.0, 3.2, 1.0; -1.0, -1.0, 0.0, -1, 0.0"`: the left gaze is
normalized, the right eye is all sentinel, the pupil values pass through
unnormalized (`3.2` and the bare integer `-1`) with validity flags `1.0`
and `0.0`. -/
theorem claim5_end_to_end_scenario :
    runSession 1920 1080
        [("\x7b\"DeviceName\":\"T\",\"SampleName\":\"EyeData\"," ++
          "\"GazeLeftX\":960,\"GazeLeftY\":540," ++
          "\"GazeRightX\":-1,\"GazeRightY\":-1," ++
          "\"PupilLeft\":3.2,\"PupilRight\":-1,\"GazeTime\":1.0\x7d\n").toList] =
      ⟨[], ["; 0.5, 0.5, 1.0, 3.2, 1.0; -1.0, -1.0, 0.0, -1, 0.0".toList],
       none⟩ :=
  rfl

end IMotions
